import Mathlib

/-!
Verification of the DictionaryPW pipeline (`password_generator.py`)

Shallow embedding of the password-generation pipeline: the complexity
enhancement transform, the generator worker's dedup/push logic, the word-list
partitioner, the monitor's active-worker count, the batching writer, and the
SQLite-backed persistent store.  Randomness (`random.randint` / `random.choice`)
is passed in explicitly; concurrency is modelled by small-step machines driven
by explicit environment actions.
-/

namespace DictionaryPW

/-! Section: Configuration (`PasswordConfig`, lines 50-70) -/

/-- List `config.common_numbers` (line 65). -/
def common_numbers : List Char := ['0', '1', '2', '3', '4', '5', '6', '7', '8', '9']

/-- List `config.common_symbols` (line 66). -/
def common_symbols : List Char := ['!', '@', '#', '$', '%', '&']

/-- Value `config.batch_size` (line 69). -/
def batch_size_config : Nat := 10000

/-- Value `config.max_workers = cpu_count() - 1 or 1` (line 70): `cpu_count() - 1`
unless that is `0` (falsy), in which case `1`. -/
def max_workers (cpu_count : Nat) : Nat :=
  if cpu_count - 1 = 0 then 1 else cpu_count - 1

/-! Section: Character predicates (Python `str.isupper`, `str.isdigit`, `str.upper`,
restricted to the ASCII characters this program manipulates) -/

/-- Python `c.isupper()` for a single ASCII character. -/
def isUpper (c : Char) : Bool := 'A' ≤ c && c ≤ 'Z'

/-- Python `c.isdigit()` for a single ASCII character. -/
def isDigit (c : Char) : Bool := '0' ≤ c && c ≤ '9'

/-- Python `c.upper()` for a single ASCII character: maps `'a'..'z'` to
`'A'..'Z'` and leaves every other character (digits, symbols) unchanged. -/
def charUpper (c : Char) : Char :=
  if 'a' ≤ c && c ≤ 'z' then Char.ofNat (c.toNat - 32) else c

/-- Python `list.insert(i, x)`: inserts `x` before position `i`, clamping `i`
to the end of the list. -/
def pyInsert (l : List Char) (i : Nat) (x : Char) : List Char :=
  l.take i ++ x :: l.drop i

/-! Section: `enhance_password` (lines 97-113)

The three `random.randint` / `random.choice` draws the function can make are
passed in explicitly as an `EnhanceRand` record. -/

/-- The random draws consumed by `enhance_password`: the replacement index and
symbol for the uppercase branch (line 103), the insertion index and digit for
the number branch (line 107), and the insertion index and symbol for the
symbol branch (line 111). -/
structure EnhanceRand where
  upIdx : Nat
  upSym : Char
  numIdx : Nat
  numCh : Char
  symIdx : Nat
  symCh : Char

/-- Function `enhance_password` (lines 97-113).  If no character is uppercase, position
`upIdx` is overwritten with `random.choice(common_symbols).upper()` — note the
`.upper()` applied to a *symbol*; if no character is a digit, a digit is
inserted at `numIdx`; if no character is a configured symbol, a symbol is
inserted at `symIdx`. -/
def enhance_password (r : EnhanceRand) (password : List Char) : List Char :=
  let p1 := if password.any isUpper then password
            else password.set r.upIdx (charUpper r.upSym)
  let p2 := if p1.any isDigit then p1
            else pyInsert p1 r.numIdx r.numCh
  if p2.any (fun c => common_symbols.contains c) then p2
  else pyInsert p2 r.symIdx r.symCh

/-- The random draws of `enhance_password` are valid for input `password`
exactly when they lie in the ranges `random.randint` / `random.choice` use
(lines 103, 107, 111); the two insertion indices range over the length of the
list *at the time of the draw*. -/
def validRand (r : EnhanceRand) (password : List Char) : Prop :=
  r.upIdx < password.length ∧ r.upSym ∈ common_symbols ∧
  1 ≤ r.numIdx ∧ r.numIdx ≤ password.length ∧ r.numCh ∈ common_numbers ∧
  1 ≤ r.symIdx ∧ r.symIdx ≤ password.length + 1 ∧ r.symCh ∈ common_symbols

lemma any_false_iff {l : List Char} {p : Char → Bool} :
    l.any p = false ↔ ∀ x ∈ l, ¬ p x := by
  simp [List.any_eq_false]

lemma any_set_false {l : List Char} {p : Char → Bool} (i : Nat) {x : Char}
    (hl : l.any p = false) (hx : p x = false) : (l.set i x).any p = false := by
  rw [any_false_iff] at hl ⊢
  intro a ha
  rcases List.mem_or_eq_of_mem_set ha with h | rfl
  · exact hl a h
  · simp [hx]

lemma mem_pyInsert {l : List Char} {i : Nat} {x a : Char}
    (h : a ∈ pyInsert l i x) : a = x ∨ a ∈ l := by
  unfold pyInsert at h
  rcases List.mem_append.1 h with h | h
  · exact Or.inr (List.mem_of_mem_take h)
  · rcases List.mem_cons.1 h with h | h
    · exact Or.inl h
    · exact Or.inr (List.mem_of_mem_drop h)

lemma any_pyInsert_false {l : List Char} {p : Char → Bool} (i : Nat) {x : Char}
    (hl : l.any p = false) (hx : p x = false) : (pyInsert l i x).any p = false := by
  rw [any_false_iff] at hl ⊢
  intro a ha
  rcases mem_pyInsert ha with rfl | h
  · simp [hx]
  · exact hl a h

lemma charUpper_symbol_not_upper {c : Char} (h : c ∈ common_symbols) :
    isUpper (charUpper c) = false := by
  fin_cases h <;> decide

lemma digit_not_upper {c : Char} (h : c ∈ common_numbers) : isUpper c = false := by
  fin_cases h <;> decide

lemma symbol_not_upper {c : Char} (h : c ∈ common_symbols) : isUpper c = false := by
  fin_cases h <;> decide

/-- C1. Refuted: `enhance_password` never *adds* an uppercase letter.  The
"Add uppercase" branch writes `random.choice(config.common_symbols).upper()`,
and `.upper()` of a symbol is that symbol, so for any input that contains no
uppercase letter (e.g. `"abcd"`) the output still contains no uppercase
letter, for every possible random draw — contradicting the claim that the
result always contains at least one uppercase letter. -/
theorem enhance_password_never_adds_uppercase (r : EnhanceRand) (password : List Char)
    (hpw : password.any isUpper = false)
    (hsym : r.upSym ∈ common_symbols)
    (hnum : r.numCh ∈ common_numbers)
    (hsym2 : r.symCh ∈ common_symbols) :
    (enhance_password r password).any isUpper = false := by
  have step2 : ∀ l : List Char, l.any isUpper = false →
      (if l.any isDigit then l else pyInsert l r.numIdx r.numCh).any isUpper = false := by
    intro l hl
    cases hd : l.any isDigit
    · simp only [Bool.false_eq_true, if_false]
      exact any_pyInsert_false r.numIdx hl (digit_not_upper hnum)
    · simpa using hl
  have step3 : ∀ l : List Char, l.any isUpper = false →
      (if l.any (fun c => common_symbols.contains c) then l
       else pyInsert l r.symIdx r.symCh).any isUpper = false := by
    intro l hl
    cases hsy : l.any (fun c => common_symbols.contains c)
    · simp only [Bool.false_eq_true, if_false]
      exact any_pyInsert_false r.symIdx hl (symbol_not_upper hsym2)
    · simpa using hl
  have h1 : (if password.any isUpper then password
             else password.set r.upIdx (charUpper r.upSym)).any isUpper = false := by
    rw [hpw]
    simp only [Bool.false_eq_true, if_false]
    exact any_set_false r.upIdx hpw (charUpper_symbol_not_upper hsym)
  simp only [enhance_password]
  exact step3 _ (step2 _ h1)

/-- Witness for C1's theorem at the concrete input `"abcd"` with the concrete
random draws `(0, '!', 1, '0', 1, '!')`. -/
theorem enhance_password_never_adds_uppercase_witness :
    (enhance_password ⟨0, '!', 1, '0', 1, '!'⟩ ['a', 'b', 'c', 'd']).any isUpper
      = false :=
  enhance_password_never_adds_uppercase ⟨0, '!', 1, '0', 1, '!'⟩ ['a', 'b', 'c', 'd']
    (by decide) (by decide) (by decide) (by decide)

/-! Section: Generator worker: dedup and push logic (`worker_process`, lines 115-133)

Functional model of the candidate-processing body (lines 123-130): the
worker's local exact set (mislabelled `bloom_filter` in the source) and the
sequence of candidates it has pushed onto the channel.  The store is an
oracle `String → Bool` standing for `db.exists`; it may differ at each step
(other workers insert concurrently), so a full run takes an indexed family
of oracles. -/

/-- The per-worker mutable state of `worker_process`: the local `bloom_filter`
set (line 118) and the list of candidates pushed to `output_queue`, in push
order. -/
structure WorkerState where
  bloom_filter : List String
  pushed : List String
deriving DecidableEq

/-- One candidate (lines 127-130): skip when the candidate is in the local
set; otherwise query `db.exists`; only when absent, push to the queue and add
to the local set. -/
def process_candidate (dbexists : String → Bool) (s : WorkerState) (c : String) :
    WorkerState :=
  if s.bloom_filter.contains c then s
  else if dbexists c then s
  else { bloom_filter := c :: s.bloom_filter, pushed := s.pushed ++ [c] }

/-- A worker run over a stream of candidates (the concatenation, over every
pass of the outer `while` loop, of the enhanced variations of the shuffled
chunk); `dbexists i` is the store contents observed at step `i`. -/
def worker_run (dbexists : Nat → String → Bool) : List String → Nat → WorkerState → WorkerState
  | [], _, s => s
  | c :: cs, i, s => worker_run dbexists cs (i + 1) (process_candidate (dbexists i) s c)

/-- C6. Confirmed: a candidate in the local set is skipped outright; a
candidate absent from the set but present in the store is skipped; and only a
candidate absent from both is pushed and then added to the set — so a worker
never pushes a candidate that was in its set or for which `exists` returned
true at the time of the check. -/
theorem worker_dedup_push (dbexists : String → Bool) (s : WorkerState) (c : String) :
    (s.bloom_filter.contains c = true → process_candidate dbexists s c = s) ∧
    (s.bloom_filter.contains c = false → dbexists c = true →
      process_candidate dbexists s c = s) ∧
    (s.bloom_filter.contains c = false → dbexists c = false →
      process_candidate dbexists s c
        = ⟨c :: s.bloom_filter, s.pushed ++ [c]⟩) := by
  refine ⟨fun h1 => ?_, fun h1 h2 => ?_, fun h1 h2 => ?_⟩
  · have h1m : c ∈ s.bloom_filter := by simpa using h1
    simp [process_candidate, h1m]
  · have h1m : ¬ c ∈ s.bloom_filter := by simpa using h1
    simp [process_candidate, h1m, h2]
  · have h1m : ¬ c ∈ s.bloom_filter := by simpa using h1
    simp [process_candidate, h1m, h2]

/-- Witness for C6's theorem: a fresh candidate against an empty store is
pushed and recorded. -/
theorem worker_dedup_push_witness :
    process_candidate (fun _ => false) ⟨[], []⟩ "cat"
      = ⟨["cat"], ["cat"]⟩ :=
  (worker_dedup_push (fun _ => false) ⟨[], []⟩ "cat").2.2 rfl rfl

lemma process_candidate_mem (dbexists : String → Bool) (s : WorkerState) (c : String)
    (h : c ∈ s.bloom_filter) : process_candidate dbexists s c = s := by
  simp [process_candidate, h]

lemma process_candidate_db (dbexists : String → Bool) (s : WorkerState) (c : String)
    (h : ¬ c ∈ s.bloom_filter) (hd : dbexists c = true) :
    process_candidate dbexists s c = s := by
  simp [process_candidate, h, hd]

lemma process_candidate_fresh (dbexists : String → Bool) (s : WorkerState) (c : String)
    (h : ¬ c ∈ s.bloom_filter) (hd : dbexists c = false) :
    process_candidate dbexists s c = ⟨c :: s.bloom_filter, s.pushed ++ [c]⟩ := by
  simp [process_candidate, h, hd]

lemma worker_run_inv (dbexists : Nat → String → Bool) (cands : List String) :
    ∀ (i : Nat) (s : WorkerState), s.pushed.Nodup →
      (∀ c ∈ s.pushed, c ∈ s.bloom_filter) →
      (worker_run dbexists cands i s).pushed.Nodup ∧
        ∀ c ∈ (worker_run dbexists cands i s).pushed,
          c ∈ (worker_run dbexists cands i s).bloom_filter := by
  induction cands with
  | nil => intro i s h1 h2; exact ⟨h1, h2⟩
  | cons c cs ih =>
    intro i s h1 h2
    simp only [worker_run]
    by_cases hb : c ∈ s.bloom_filter
    · rw [process_candidate_mem _ _ _ hb]
      exact ih (i + 1) s h1 h2
    · by_cases hd : dbexists i c = true
      · rw [process_candidate_db _ _ _ hb hd]
        exact ih (i + 1) s h1 h2
      · rw [process_candidate_fresh _ _ _ hb (by simpa using hd)]
        refine ih (i + 1) _ ?_ ?_
        · refine List.nodup_append.2 ⟨h1, List.nodup_singleton c, ?_⟩
          intro a ha hc
          rcases List.mem_singleton.1 hc with rfl
          exact hb (h2 a ha)
        · intro a ha
          rcases List.mem_append.1 ha with h | h
          · exact List.mem_cons_of_mem c (h2 a h)
          · rcases List.mem_singleton.1 h with rfl
            exact List.mem_cons_self a s.bloom_filter

/-- C10. Confirmed: over any candidate stream and any evolution of the
store, a single worker run never pushes the same string twice — the pushed
sequence has no duplicates, because a push requires absence from the local
set and is immediately followed by insertion into it. -/
theorem worker_no_duplicate_push (dbexists : Nat → String → Bool) (cands : List String) :
    ((worker_run dbexists cands 0 ⟨[], []⟩).pushed).Nodup :=
  (worker_run_inv dbexists cands 0 ⟨[], []⟩ List.nodup_nil (by simp)).1

/-! Section: Generator worker as a small-step machine (`worker_process`, lines 120-133)

One pass of the inner `for` loops over an (already shuffled and flattened)
candidate stream; the outer reshuffling `while` loop repeats such passes and
adds nothing to the per-candidate control flow modelled here.  The shared
queue is seen from the worker's side: the worker only appends; draining by
the writer is an external event, deliberately absent so that the model
captures the scenario in which no consumer frees a slot. -/

/-- Control position of a worker inside one pass: about to process the next
candidate (line 123-124), blocked in `output_queue.put` (line 129), at the
per-candidate `if stop_event.is_set(): return` check (lines 132-133), or
returned. -/
inductive WPhase where
  | next (cands : List String)
  | pushing (c : String) (cands : List String)
  | stopCheck (cands : List String)
  | done
deriving DecidableEq

/-- A worker together with its view of the shared state: local set, queue
contents, and the cancellation flag. -/
structure WSys where
  phase : WPhase
  bloom : List String
  queue : List String
  stop : Bool
deriving DecidableEq

/-- One deterministic step of the worker (lines 122-133).  `dbexists` is the
store oracle, `cap` the channel capacity (`maxsize=100000`, line 170).  A
`put` on a full queue leaves the state unchanged: `Queue.put` is called with
no timeout and performs no cancellation check, so the worker just stays
blocked. -/
def wstep (dbexists : String → Bool) (cap : Nat) (s : WSys) : WSys :=
  match s.phase with
  | .next [] => { s with phase := .done }
  | .next (c :: cs) =>
      if s.bloom.contains c then { s with phase := .stopCheck cs }
      else if dbexists c then { s with phase := .stopCheck cs }
      else { s with phase := .pushing c cs }
  | .pushing c cs =>
      if s.queue.length < cap then
        { s with phase := .stopCheck cs, queue := s.queue ++ [c], bloom := c :: s.bloom }
      else s
  | .stopCheck cs => if s.stop then { s with phase := .done } else { s with phase := .next cs }
  | .done => s

/-- C2. The first half of the claim holds: the worker re-checks the
cancellation flag after *every* candidate (skipped or pushed) and returns at
once when it is set.  The second half is refuted: a worker blocked in
`output_queue.put` on a full channel is a fixed point of the worker's own
transition even when cancellation is set — no number of steps ever gets it
to `done`; the `put` call has no timeout and never observes the flag. -/
theorem worker_candidate_cancellation (dbexists : String → Bool) (cap : Nat) (s : WSys) :
    (∀ cs, s.phase = .stopCheck cs → s.stop = true →
      (wstep dbexists cap s).phase = .done) ∧
    (∀ c cs, s.phase = .pushing c cs → cap ≤ s.queue.length → s.stop = true →
      ∀ n, (wstep dbexists cap)^[n] s = s) := by
  constructor
  · intro cs hp hs
    simp [wstep, hp, hs]
  · intro c cs hp hq _
    have hfix : wstep dbexists cap s = s := by
      simp [wstep, hp, Nat.not_lt.2 hq]
    exact Function.iterate_fixed hfix

/-- Witness for C2's theorem: a concrete worker with cancellation set, once at
the post-candidate check (it returns in one step), and once blocked pushing
into a full capacity-1 channel (it is still blocked after any number of
steps; shown here for 5 steps). -/
theorem worker_candidate_cancellation_witness :
    (wstep (fun _ => false) 1 ⟨.stopCheck [], [], ["q"], true⟩).phase = .done ∧
      (wstep (fun _ => false) 1)^[5] ⟨.pushing "c" [], [], ["q"], true⟩
        = ⟨.pushing "c" [], [], ["q"], true⟩ :=
  ⟨(worker_candidate_cancellation (fun _ => false) 1
      ⟨.stopCheck [], [], ["q"], true⟩).1 [] rfl rfl,
   (worker_candidate_cancellation (fun _ => false) 1
      ⟨.pushing "c" [], [], ["q"], true⟩).2 "c" [] rfl (by decide) rfl 5⟩

/-! Section: Word-list partitioning (`main`, lines 180-182) and worker liveness
(lines 185-198) -/

/-- Successive slices `words[i:i+cs+1]` for `i = 0, cs+1, 2(cs+1), …` — the
list comprehension of line 182 with chunk size `cs + 1` (kept positive
structurally; `word_chunks` subtracts the 1 back). -/
def chunksAux (cs : Nat) : List String → List (List String)
  | [] => []
  | w :: ws => ((w :: ws).take (cs + 1)) :: chunksAux cs (ws.drop cs)
termination_by l => l.length
decreasing_by simp only [List.length_drop, List.length_cons]; omega

/-- Lines 181-182: `chunk_size = len(words) // max_workers` and
`[words[i:i+chunk_size] for i in range(0, len(words), chunk_size)]`.  When
`chunk_size` is `0` (fewer words than workers), Python's `range` raises
`ValueError: range() arg 3 must not be zero`; that failure is `none`. -/
def word_chunks (words : List String) (n : Nat) : Option (List (List String)) :=
  let chunk_size := words.length / n
  if chunk_size = 0 then none else some (chunksAux (chunk_size - 1) words)

lemma chunksAux_flatten_le (cs : Nat) :
    ∀ (fuel : Nat) (l : List String), l.length ≤ fuel → (chunksAux cs l).flatten = l := by
  intro fuel
  induction fuel with
  | zero =>
    intro l hl
    have : l = [] := List.eq_nil_of_length_eq_zero (Nat.le_zero.1 hl)
    subst this
    simp [chunksAux]
  | succ n ih =>
    intro l hl
    match l with
    | [] => simp [chunksAux]
    | w :: ws =>
      rw [chunksAux]
      have hlen : (ws.drop cs).length ≤ n := by
        simp only [List.length_drop]
        simp only [List.length_cons] at hl
        omega
      rw [List.flatten_cons, ih _ hlen]
      have hdrop : ws.drop cs = (w :: ws).drop (cs + 1) := by simp
      rw [hdrop, List.take_append_drop]

lemma chunksAux_flatten (cs : Nat) (l : List String) : (chunksAux cs l).flatten = l :=
  chunksAux_flatten_le cs l.length l (Nat.le_refl _)

lemma chunksAux_length_le (cs : Nat) :
    ∀ (fuel : Nat) (l : List String), l.length ≤ fuel →
      (chunksAux cs l).length = (l.length + cs) / (cs + 1) := by
  intro fuel
  induction fuel with
  | zero =>
    intro l hl
    have : l = [] := List.eq_nil_of_length_eq_zero (Nat.le_zero.1 hl)
    subst this
    simp only [chunksAux, List.length_nil, Nat.zero_add]
    exact (Nat.div_eq_of_lt (Nat.lt_succ_self cs)).symm
  | succ n ih =>
    intro l hl
    match l with
    | [] =>
      simp only [chunksAux, List.length_nil, Nat.zero_add]
      exact (Nat.div_eq_of_lt (Nat.lt_succ_self cs)).symm
    | w :: ws =>
      rw [chunksAux]
      have hlen : (ws.drop cs).length ≤ n := by
        simp only [List.length_drop]
        simp only [List.length_cons] at hl
        omega
      simp only [List.length_cons, ih _ hlen, List.length_drop]
      have hR : ws.length + 1 + cs = ws.length + (cs + 1) := by omega
      rw [hR, Nat.add_div_right _ (Nat.succ_pos cs)]
      by_cases hc : cs ≤ ws.length
      · have hsub : ws.length - cs + cs = ws.length := by omega
        rw [hsub]
      · have h0 : ws.length - cs = 0 := by omega
        have hsm : ws.length / (cs + 1) = 0 := Nat.div_eq_of_lt (by omega)
        have hcs0 : cs / (cs + 1) = 0 := Nat.div_eq_of_lt (Nat.lt_succ_self cs)
        rw [h0, Nat.zero_add, hsm, hcs0]

lemma chunksAux_length (cs : Nat) (l : List String) :
    (chunksAux cs l).length = (l.length + cs) / (cs + 1) :=
  chunksAux_length_le cs l.length l (Nat.le_refl _)

/-- C3. Counterexample: with five seed words and a configured worker
count of 2, `chunk_size = 5 // 2 = 2` and the slicing loop produces *three*
chunks (hence three spawned workers), not 2. -/
theorem word_chunks_three_not_two :
    (word_chunks ["cat", "dog", "sun", "bird", "hello"] 2).map List.length = some 3 ∧
      (word_chunks ["cat", "dog", "sun", "bird", "hello"] 2).map List.length
        ≠ some 2 := by
  have h : word_chunks ["cat", "dog", "sun", "bird", "hello"] 2
      = some [["cat", "dog"], ["sun", "bird"], ["hello"]] := by
    simp [word_chunks, chunksAux]
  rw [h]
  exact ⟨rfl, by decide⟩

/-- C3 (amended). When the word list has at least as many words as the
configured worker count (so `chunk_size = ⌊L/N⌋ ≥ 1`), partitioning succeeds
and yields contiguous chunks of size `chunk_size` whose concatenation is
exactly the word list (every seed word lies in exactly one chunk); the number
of chunks — and of spawned workers — is `⌈L / chunk_size⌉`, which can exceed
N; and the configured default worker count is `max 1 (cpu_count − 1)`. -/
theorem word_chunks_partition (words : List String) (n : Nat)
    (h : words.length / n ≠ 0) :
    word_chunks words n = some (chunksAux (words.length / n - 1) words) ∧
    (chunksAux (words.length / n - 1) words).flatten = words ∧
    (chunksAux (words.length / n - 1) words).length
      = (words.length + (words.length / n) - 1) / (words.length / n) ∧
    (∀ cpu_count : Nat, max_workers cpu_count = max 1 (cpu_count - 1)) := by
  refine ⟨by simp [word_chunks, h], chunksAux_flatten _ words, ?_, ?_⟩
  · rw [chunksAux_length]
    have h1 : 1 ≤ words.length / n := Nat.one_le_iff_ne_zero.2 h
    have h2 : words.length / n - 1 + 1 = words.length / n := by omega
    rw [h2]
    congr 1
    omega
  · intro cpu_count
    match cpu_count with
    | 0 => decide
    | 1 => decide
    | k + 2 =>
      unfold max_workers
      rw [if_neg (by omega : ¬ (k + 2) - 1 = 0)]
      have hmax : max 1 (k + 2 - 1) = k + 2 - 1 :=
        Nat.max_eq_right (by omega)
      rw [hmax]

/-- Witness for C3's amended theorem: four words, two workers, chunk size 2,
exactly two chunks. -/
theorem word_chunks_partition_witness :
    word_chunks ["cat", "dog", "sun", "bird"] 2
        = some (chunksAux (["cat", "dog", "sun", "bird"].length / 2 - 1)
            ["cat", "dog", "sun", "bird"]) ∧
      (chunksAux (["cat", "dog", "sun", "bird"].length / 2 - 1)
          ["cat", "dog", "sun", "bird"]).flatten = ["cat", "dog", "sun", "bird"] ∧
      (chunksAux (["cat", "dog", "sun", "bird"].length / 2 - 1)
          ["cat", "dog", "sun", "bird"]).length
        = (["cat", "dog", "sun", "bird"].length
            + (["cat", "dog", "sun", "bird"].length / 2) - 1)
          / (["cat", "dog", "sun", "bird"].length / 2) ∧
      max_workers 8 = max 1 7 :=
  ⟨(word_chunks_partition ["cat", "dog", "sun", "bird"] 2 (by decide)).1,
   (word_chunks_partition ["cat", "dog", "sun", "bird"] 2 (by decide)).2.1,
   (word_chunks_partition ["cat", "dog", "sun", "bird"] 2 (by decide)).2.2.1,
   (word_chunks_partition ["cat", "dog", "sun", "bird"] 2 (by decide)).2.2.2 8⟩

/-- The monitor's report `sum(p.is_alive() for p in workers)` (line 198):
the number of `true` entries in the list of per-worker liveness flags. -/
def workers_active (alive : List Bool) : Nat := alive.count true

/-- Pointwise decay between two liveness snapshots: a worker alive later was
alive earlier (processes are spawned once, at line 188, and never
restarted). -/
def AliveDecay (a b : List Bool) : Prop :=
  List.Forall₂ (fun x y => y = true → x = true) a b

/-- C4. Counterexample: the claim's bound is against the *configured*
count.  With five words and `max_workers = 2`, three workers are spawned (one
per chunk, claim C3's counterexample), and at the first report all three are
alive: the reported count is 3 > 2. -/
theorem workers_active_exceeds_configured :
    workers_active (List.replicate 3 true) = 3 ∧
      (word_chunks ["cat", "dog", "sun", "bird", "hello"] 2).map List.length
        = some (workers_active (List.replicate 3 true)) ∧
      ¬ workers_active (List.replicate 3 true) ≤ 2 := by
  have h : word_chunks ["cat", "dog", "sun", "bird", "hello"] 2
      = some [["cat", "dog"], ["sun", "bird"], ["hello"]] := by
    simp [word_chunks, chunksAux]
  rw [h]
  refine ⟨by decide, by decide, by decide⟩

lemma count_true_le_of_decay : ∀ {a b : List Bool}, AliveDecay a b →
    b.count true ≤ a.count true := by
  intro a b h
  induction h with
  | nil => exact Nat.le_refl 0
  | cons hxy htl ih =>
    rename_i x y l1 l2
    cases y
    · cases x <;> simp only [List.count_cons] <;> simp <;> omega
    · have hx : x = true := hxy rfl
      subst hx
      simp only [List.count_cons]
      simp
      omega

/-- C4 (amended). The reported active-worker count never exceeds the
number of *spawned* workers (one per chunk — which can exceed the configured
count), and across any two snapshots in which workers have only died (as
after cancellation: processes return and are never restarted) the reported
count is non-increasing. -/
theorem workers_active_bound_and_monotone (a b : List Bool) :
    workers_active a ≤ a.length ∧
      (AliveDecay a b → workers_active b ≤ workers_active a) := by
  constructor
  · exact List.count_le_length true a
  · intro h
    exact count_true_le_of_decay h

/-- Witness for C4's amended theorem: three spawned workers, one dies. -/
theorem workers_active_bound_and_monotone_witness :
    workers_active [true, true, true] ≤ 3 ∧
      workers_active [true, false, true] ≤ workers_active [true, true, true] :=
  ⟨(workers_active_bound_and_monotone [true, true, true] [true, false, true]).1,
   (workers_active_bound_and_monotone [true, true, true] [true, false, true]).2
     (by constructor
         · intro h; exact h
         · constructor
           · intro h; exact absurd h (by decide)
           · constructor
             · intro h; exact h
             · exact List.Forall₂.nil)⟩

/-! Section: Persistent store (`PasswordDB`, lines 16-48)

The `passwords` table: `password TEXT PRIMARY KEY, created TIMESTAMP DEFAULT
CURRENT_TIMESTAMP`.  A database state is the list of rows in insertion
order; the primary key keeps `password` values unique.  `INSERT OR IGNORE`
appends a fresh row or silently does nothing. -/

/-- One row of the `passwords` table (lines 25-28). -/
structure DBRow where
  password : String
  created : Nat
deriving DecidableEq

/-- Method `PasswordDB.exists` (lines 35-40): `SELECT 1 FROM passwords WHERE
password = ?` is non-empty. -/
def db_exists (db : List DBRow) (password : String) : Bool :=
  db.any (fun row => row.password == password)

/-- One `INSERT OR IGNORE INTO passwords (password) VALUES (?)` (line 45):
appends a row with the current timestamp unless the key is present. -/
def insert_or_ignore (now : Nat) (db : List DBRow) (password : String) : List DBRow :=
  if db_exists db password then db else db ++ [⟨password, now⟩]

/-- Method `PasswordDB.insert_batch` (lines 42-48): `executemany` of the
insert-or-ignore statement over the batch, then commit. -/
def insert_batch (now : Nat) (db : List DBRow) (passwords : List String) : List DBRow :=
  passwords.foldl (insert_or_ignore now) db

/-- Number of persisted rows whose key is `password`. -/
def keyCount (db : List DBRow) (password : String) : Nat :=
  (db.filter (fun row => row.password == password)).length

lemma keyCount_insert_or_ignore (now : Nat) (db : List DBRow) (p q : String) :
    keyCount (insert_or_ignore now db p) q
      = if db_exists db p = false ∧ p = q then keyCount db q + 1 else keyCount db q := by
  unfold insert_or_ignore
  cases he : db_exists db p
  · by_cases hpq : p = q
    · subst hpq
      simp [keyCount]
    · simp only [Bool.false_eq_true, if_false, keyCount, List.filter_append]
      simp [hpq]
  · simp [he]

lemma db_exists_iff (db : List DBRow) (p : String) :
    db_exists db p = true ↔ 0 < keyCount db p := by
  unfold db_exists keyCount
  rw [List.any_eq_true, List.length_pos]
  constructor
  · rintro ⟨row, hm, hb⟩
    exact List.ne_nil_of_mem (List.mem_filter.2 ⟨hm, hb⟩)
  · intro hne
    rcases List.exists_mem_of_ne_nil _ hne with ⟨row, hrow⟩
    rcases List.mem_filter.1 hrow with ⟨hm, hb⟩
    exact ⟨row, hm, hb⟩

/-- C7. Confirmed: insert is idempotent.  Starting from any state whose
primary-key invariant holds for key `k` (at most one row), inserting `k`
twice within one batch, or in two successive batches, leaves exactly one
persisted row for `k`; and re-inserting a present key is a no-op rather than
an error (`INSERT OR IGNORE` never raises on a duplicate). -/
theorem insert_batch_idempotent (now later : Nat) (db : List DBRow) (k : String)
    (huniq : keyCount db k ≤ 1) :
    keyCount (insert_batch now db [k, k]) k = 1 ∧
    keyCount (insert_batch later (insert_batch now db [k]) [k]) k = 1 ∧
    (db_exists db k = true → insert_or_ignore now db k = db) := by
  have hstep : ∀ m : Nat, ∀ d : List DBRow, keyCount d k ≤ 1 →
      keyCount (insert_or_ignore m d k) k = 1 := by
    intro m d hd
    rw [keyCount_insert_or_ignore]
    cases he : db_exists d k
    · rw [if_pos (show false = false ∧ k = k from ⟨rfl, rfl⟩)]
      have h0 : keyCount d k = 0 := by
        by_contra hne
        exact absurd ((db_exists_iff d k).2 (by omega)) (by simp [he])
      omega
    · have h1 : 0 < keyCount d k := (db_exists_iff d k).1 he
      rw [if_neg (show ¬ (true = false ∧ k = k) by simp)]
      omega
  have huniq1 : ∀ m : Nat, ∀ d : List DBRow, keyCount d k ≤ 1 →
      keyCount (insert_or_ignore m d k) k ≤ 1 := by
    intro m d hd
    exact Nat.le_of_eq (hstep m d hd)
  refine ⟨?_, ?_, ?_⟩
  · show keyCount (insert_or_ignore now (insert_or_ignore now db k) k) k = 1
    exact hstep now _ (huniq1 now db huniq)
  · show keyCount (insert_or_ignore later (insert_or_ignore now db k) k) k = 1
    exact hstep later _ (huniq1 now db huniq)
  · intro he
    unfold insert_or_ignore
    rw [if_pos he]

/-- Witness for C7's theorem: inserting `"cat"` twice into the empty store
leaves exactly one row. -/
theorem insert_batch_idempotent_witness :
    keyCount (insert_batch 0 [⟨"cat", 9⟩] ["cat", "cat"]) "cat" = 1 ∧
    keyCount (insert_batch 1 (insert_batch 0 [⟨"cat", 9⟩] ["cat"]) ["cat"]) "cat" = 1 ∧
    insert_or_ignore 0 [⟨"cat", 9⟩] "cat" = [⟨"cat", 9⟩] :=
  ⟨(insert_batch_idempotent 0 1 [⟨"cat", 9⟩] "cat" (by decide)).1,
   (insert_batch_idempotent 0 1 [⟨"cat", 9⟩] "cat" (by decide)).2.1,
   (insert_batch_idempotent 0 1 [⟨"cat", 9⟩] "cat" (by decide)).2.2 (by decide)⟩

lemma insert_batch_extends (now : Nat) :
    ∀ (ps : List String) (d : List DBRow),
      ∃ ext : List DBRow, insert_batch now d ps = d ++ ext := by
  intro ps
  induction ps with
  | nil => intro d; exact ⟨[], by simp [insert_batch]⟩
  | cons p ps ih =>
    intro d
    show ∃ ext, insert_batch now (insert_or_ignore now d p) ps = d ++ ext
    rcases ih (insert_or_ignore now d p) with ⟨ext, hext⟩
    unfold insert_or_ignore at hext ⊢
    cases he : db_exists d p
    · rw [he] at hext
      simp only [Bool.false_eq_true, if_false] at hext ⊢
      exact ⟨[⟨p, now⟩] ++ ext, by rw [hext, List.append_assoc]⟩
    · rw [he] at hext
      simp only [if_true] at hext ⊢
      exact ⟨ext, hext⟩

/-- C9. Confirmed: the store only ever grows by appending.  After any
`insert_batch`, the first `db.length` rows of the new state are exactly the
old rows — in place and unmodified, keys and `created` timestamps included —
so rows are only ever added after them, and every pre-existing row is still
present; `exists` is a pure read (`db_exists` takes the state and returns a
`Bool`; it has no state to modify). -/
theorem insert_batch_frame (now : Nat) (db : List DBRow) (passwords : List String) :
    (insert_batch now db passwords).take db.length = db ∧
    (∀ row ∈ db, row ∈ insert_batch now db passwords) := by
  rcases insert_batch_extends now passwords db with ⟨ext, hext⟩
  rw [hext]
  exact ⟨List.take_left db ext, fun row hrow => List.mem_append_left ext hrow⟩

/-- Witness for C9's theorem: a pre-existing row `("old", 3)` survives a
batch of one duplicate and one fresh key, in place. -/
theorem insert_batch_frame_witness :
    (insert_batch 7 [⟨"old", 3⟩] ["old", "fresh"]).take 1 = [⟨"old", 3⟩] ∧
      (⟨"old", 3⟩ : DBRow) ∈ insert_batch 7 [⟨"old", 3⟩] ["old", "fresh"] :=
  ⟨(insert_batch_frame 7 [⟨"old", 3⟩] ["old", "fresh"]).1,
   (insert_batch_frame 7 [⟨"old", 3⟩] ["old", "fresh"]).2 ⟨"old", 3⟩ (by decide)⟩

/-! Section: Batch writer as a small-step machine (`writer_process`, lines 135-156)

The writer is driven by environment actions: producers pushing, the
supervisor's signal handler setting the stop flag, and the outcomes of its
own blocking calls (`output_queue.get(timeout=1)` delivering an item or
raising, `db.insert_batch` committing or raising).  Control positions mirror
the source: the outer `while` condition (line 140), the inner `while`
condition (line 142), blocked in `get` (line 143), in `insert_batch`
(line 146), at the final flush (lines 155-156), returned, or killed by an
uncaught exception. -/

/-- Control position of the writer. -/
inductive WrPhase where
  | loopCheck
  | innerCheck
  | getting
  | flushing
  | finalFlush
  | done
  | aborted
deriving DecidableEq

/-- Environment actions driving the writer. -/
inductive WrAct where
  | tick
  | push (c : String)
  | setStop
  | deliver
  | timeout
  | flushOk
  | flushFail
deriving DecidableEq

/-- Writer-side system state: channel contents, current batch, successfully
flushed batches in commit order, all items dequeued so far, a count of
logged writer errors, the cancellation flag, and the control position. -/
structure WrSys where
  phase : WrPhase
  queue : List String
  batch : List String
  flushed : List (List String)
  popped : List String
  logs : Nat
  stop : Bool
deriving DecidableEq

/-- One step of the writer system; `bs` is `config.batch_size`, `cap` the
channel capacity.  `tick` advances the two `while` conditions (lines 140 and
142) and the final-flush guard (line 155); `deliver`/`timeout` resolve the
blocked `get` (line 143; on an exception, line 151 logs only when the stop
flag is *not* set, and control returns to the outer loop); `flushOk`/
`flushFail` resolve `insert_batch` (line 146 inside the `try`, retried with
the batch intact on failure; lines 155-156 outside any `try`, so a failure
there is an uncaught exception). -/
def wrstep (bs cap : Nat) (s : WrSys) (a : WrAct) : WrSys :=
  match a with
  | .push c => if s.queue.length < cap then { s with queue := s.queue ++ [c] } else s
  | .setStop => { s with stop := true }
  | .tick =>
      match s.phase with
      | .loopCheck =>
          if !s.stop || !s.queue.isEmpty then { s with phase := .innerCheck }
          else { s with phase := .finalFlush }
      | .innerCheck =>
          if s.batch.length < bs then { s with phase := .getting }
          else { s with phase := .flushing }
      | .finalFlush => if s.batch.isEmpty then { s with phase := .done } else s
      | _ => s
  | .deliver =>
      match s.phase, s.queue with
      | .getting, c :: q =>
          { s with queue := q, batch := s.batch ++ [c], popped := s.popped ++ [c],
                   phase := .innerCheck }
      | _, _ => s
  | .timeout =>
      match s.phase with
      | .getting =>
          if s.stop then { s with phase := .loopCheck }
          else { s with phase := .loopCheck, logs := s.logs + 1 }
      | _ => s
  | .flushOk =>
      match s.phase with
      | .flushing =>
          { s with flushed := s.flushed ++ [s.batch], batch := [], phase := .loopCheck }
      | .finalFlush =>
          if s.batch.isEmpty then s
          else { s with flushed := s.flushed ++ [s.batch], batch := [], phase := .done }
      | _ => s
  | .flushFail =>
      match s.phase with
      | .flushing =>
          if s.stop then { s with phase := .loopCheck }
          else { s with phase := .loopCheck, logs := s.logs + 1 }
      | .finalFlush => if s.batch.isEmpty then s else { s with phase := .aborted }
      | _ => s

/-- The writer's start state (lines 137-138): at the outer loop, empty batch,
nothing dequeued or flushed, with the channel holding `q0`. -/
def wrInit (q0 : List String) : WrSys :=
  { phase := .loopCheck, queue := q0, batch := [], flushed := [], popped := [],
    logs := 0, stop := false }

/-- A run of the writer under an action sequence. -/
def wrRun (bs cap : Nat) (q0 : List String) (acts : List WrAct) : WrSys :=
  acts.foldl (wrstep bs cap) (wrInit q0)

/-- The accounting invariant: everything dequeued is either already in a
flushed batch or still in the current batch — and a terminated writer has an
empty batch. -/
def WrInv (s : WrSys) : Prop :=
  s.popped = s.flushed.flatten ++ s.batch ∧ (s.phase = .done → s.batch = [])

lemma wrstep_inv (bs cap : Nat) (s : WrSys) (a : WrAct) (h : WrInv s) :
    WrInv (wrstep bs cap s a) := by
  obtain ⟨ph, q, b, fl, pp, lg, st⟩ := s
  have hacc : pp = fl.flatten ++ b := h.1
  have hdone : ph = .done → b = [] := h.2
  cases a with
  | push c =>
      show WrInv (if q.length < cap then ⟨ph, q ++ [c], b, fl, pp, lg, st⟩
                  else ⟨ph, q, b, fl, pp, lg, st⟩)
      split
      · exact ⟨hacc, hdone⟩
      · exact ⟨hacc, hdone⟩
  | setStop => exact ⟨hacc, hdone⟩
  | tick =>
      cases ph with
      | loopCheck =>
          show WrInv (if !st || !q.isEmpty then ⟨.innerCheck, q, b, fl, pp, lg, st⟩
                      else ⟨.finalFlush, q, b, fl, pp, lg, st⟩)
          split
          · exact ⟨hacc, fun hd => nomatch hd⟩
          · exact ⟨hacc, fun hd => nomatch hd⟩
      | innerCheck =>
          show WrInv (if b.length < bs then ⟨.getting, q, b, fl, pp, lg, st⟩
                      else ⟨.flushing, q, b, fl, pp, lg, st⟩)
          split
          · exact ⟨hacc, fun hd => nomatch hd⟩
          · exact ⟨hacc, fun hd => nomatch hd⟩
      | finalFlush =>
          show WrInv (if b.isEmpty then ⟨.done, q, b, fl, pp, lg, st⟩
                      else ⟨.finalFlush, q, b, fl, pp, lg, st⟩)
          split
          · next hb => exact ⟨hacc, fun _ => List.isEmpty_iff.1 hb⟩
          · exact ⟨hacc, fun hd => nomatch hd⟩
      | getting => exact ⟨hacc, hdone⟩
      | flushing => exact ⟨hacc, hdone⟩
      | done => exact ⟨hacc, hdone⟩
      | aborted => exact ⟨hacc, hdone⟩
  | deliver =>
      cases ph <;> cases q <;> try exact ⟨hacc, hdone⟩
      case getting.cons c rest =>
        refine ⟨?_, fun hd => nomatch hd⟩
        show pp ++ [c] = fl.flatten ++ (b ++ [c])
        rw [hacc, List.append_assoc]
  | timeout =>
      cases ph <;> try exact ⟨hacc, hdone⟩
      case getting =>
        show WrInv (if st then ⟨.loopCheck, q, b, fl, pp, lg, st⟩
                    else ⟨.loopCheck, q, b, fl, pp, lg + 1, st⟩)
        split
        · exact ⟨hacc, fun hd => nomatch hd⟩
        · exact ⟨hacc, fun hd => nomatch hd⟩
  | flushOk =>
      cases ph <;> try exact ⟨hacc, hdone⟩
      case flushing =>
        refine ⟨?_, fun hd => nomatch hd⟩
        show pp = (fl ++ [b]).flatten ++ []
        simp [hacc, List.flatten_append]
      case finalFlush =>
        show WrInv (if b.isEmpty then ⟨.finalFlush, q, b, fl, pp, lg, st⟩
                    else ⟨.done, q, [], fl ++ [b], pp, lg, st⟩)
        split
        · exact ⟨hacc, fun hd => nomatch hd⟩
        · refine ⟨?_, fun _ => rfl⟩
          show pp = (fl ++ [b]).flatten ++ []
          simp [hacc, List.flatten_append]
  | flushFail =>
      cases ph <;> try exact ⟨hacc, hdone⟩
      case flushing =>
        show WrInv (if st then ⟨.loopCheck, q, b, fl, pp, lg, st⟩
                    else ⟨.loopCheck, q, b, fl, pp, lg + 1, st⟩)
        split
        · exact ⟨hacc, fun hd => nomatch hd⟩
        · exact ⟨hacc, fun hd => nomatch hd⟩
      case finalFlush =>
        show WrInv (if b.isEmpty then ⟨.finalFlush, q, b, fl, pp, lg, st⟩
                    else ⟨.aborted, q, b, fl, pp, lg, st⟩)
        split
        · exact ⟨hacc, fun hd => nomatch hd⟩
        · exact ⟨hacc, fun hd => nomatch hd⟩

lemma wrRun_inv (bs cap : Nat) (q0 : List String) (acts : List WrAct) :
    WrInv (wrRun bs cap q0 acts) := by
  have hinit : WrInv (wrInit q0) := by
    constructor <;> simp [wrInit]
  unfold wrRun
  generalize wrInit q0 = s at hinit
  induction acts generalizing s with
  | nil => exact hinit
  | cons a acts ih => exact ih _ (wrstep_inv bs cap s a hinit)

/-- C5. Confirmed: in any run that ends with the writer returned, every
candidate the writer dequeued from the channel lies in some flushed batch
(the batches concatenate to exactly the dequeued sequence, in order), and
from the final-flush position a non-empty partial batch is flushed as one
final batch. -/
theorem writer_flushes_all_dequeued (bs cap : Nat) (q0 : List String)
    (acts : List WrAct) (hdone : (wrRun bs cap q0 acts).phase = .done) :
    (wrRun bs cap q0 acts).popped = (wrRun bs cap q0 acts).flushed.flatten ∧
      ∀ s : WrSys, s.phase = .finalFlush → s.batch ≠ [] →
        (wrstep bs cap s .flushOk).flushed = s.flushed ++ [s.batch] := by
  rcases wrRun_inv bs cap q0 acts with ⟨hacc, hempty⟩
  refine ⟨?_, ?_⟩
  · rw [hacc, hempty hdone, List.append_nil]
  · intro s hp hb
    simp [wrstep, hp, List.isEmpty_iff, hb]

/-- Witness for C5's theorem: batch size 2, one candidate in the channel;
cancellation fires first, the writer dequeues the candidate, times out once,
exits the loop, and final-flushes the half-full batch. -/
theorem writer_flushes_all_dequeued_witness :
    (wrRun 2 10 ["pw1"] [.setStop, .tick, .tick, .deliver, .tick, .timeout, .tick,
        .flushOk]).popped
      = (wrRun 2 10 ["pw1"] [.setStop, .tick, .tick, .deliver, .tick, .timeout, .tick,
          .flushOk]).flushed.flatten ∧
    (wrstep 2 10 ⟨.finalFlush, [], ["pw2"], [], ["pw2"], 0, true⟩ .flushOk).flushed
      = [] ++ [["pw2"]] :=
  ⟨(writer_flushes_all_dequeued 2 10 ["pw1"]
      [.setStop, .tick, .tick, .deliver, .tick, .timeout, .tick, .flushOk]
      (by decide)).1,
   (writer_flushes_all_dequeued 2 10 ["pw1"]
      [.setStop, .tick, .tick, .deliver, .tick, .timeout, .tick, .flushOk]
      (by decide)).2 ⟨.finalFlush, [], ["pw2"], [], ["pw2"], 0, true⟩ rfl
      (by decide)⟩

/-- C8. Confirmed: a failure of the blocked `get` or of a mid-loop flush
is caught by the writer's `except` handler: when the stop flag is not set
(the failure is not part of cancellation) it is logged, the batch is kept,
and control returns to the loop condition — the writer never aborts on such
a failure, whatever the state. -/
theorem writer_failure_logged_and_retried (bs cap : Nat) (s : WrSys) :
    (s.phase = .getting →
      (wrstep bs cap s .timeout).phase = .loopCheck ∧
      (wrstep bs cap s .timeout).batch = s.batch ∧
      (s.stop = false → (wrstep bs cap s .timeout).logs = s.logs + 1)) ∧
    (s.phase = .flushing →
      (wrstep bs cap s .flushFail).phase = .loopCheck ∧
      (wrstep bs cap s .flushFail).batch = s.batch ∧
      (s.stop = false → (wrstep bs cap s .flushFail).logs = s.logs + 1)) := by
  constructor
  · intro hp
    cases hs : s.stop <;> simp [wrstep, hp, hs]
  · intro hp
    cases hs : s.stop <;> simp [wrstep, hp, hs]

/-- Witness for C8's theorem: a writer blocked in `get` with the stop flag
clear; a timeout sends it back to the loop with one more logged error, batch
intact. -/
theorem writer_failure_logged_and_retried_witness :
    (wrstep 2 10 ⟨.getting, [], ["pw1"], [], ["pw1"], 0, false⟩ .timeout).phase
        = .loopCheck ∧
      (wrstep 2 10 ⟨.getting, [], ["pw1"], [], ["pw1"], 0, false⟩ .timeout).batch
        = ["pw1"] ∧
      (wrstep 2 10 ⟨.getting, [], ["pw1"], [], ["pw1"], 0, false⟩ .timeout).logs = 1 :=
  let h := (writer_failure_logged_and_retried 2 10
    ⟨.getting, [], ["pw1"], [], ["pw1"], 0, false⟩).1 rfl
  ⟨h.1, h.2.1, h.2.2 rfl⟩

end DictionaryPW
